import Mathlib

/-!
Verification of the iterator walkthrough in `src/main.rs`.

The program exercises Rust iterators over small integer vectors:
manual pulls with `next()`, the three view modes (`iter`, `iter_mut`,
`into_iter`), the lazy pipeline adapters `map` and `filter`, the terminal
operations `fold`, `collect` and `reduce`, and a final `reduce` over the
integer range `1..101`.

The embedding below models containers as `List Int` (the element type of
every vector in the program is `i32`; arithmetic in the program stays far
from overflow, so `Int` is faithful).  The pull protocol is modelled twice,
both translated from the iterator semantics the program relies on:

* `VecIter`, a cursor over a container, embeds `Vec::iter` / `next()`
  (a position that advances monotonically and sticks at the end);
* `Pipe`, a demand-driven pipeline (a source plus lazily attached `map` /
  `filter` stages), embeds adapter chains such as
  `numbers.iter().map(|&x| x * x).collect()`.  Its single-pull step
  `pnext` additionally counts how many times a stage function is invoked,
  so that laziness claims become statements about those counts.
  `pnext` takes a fuel argument only to make the `filter` skip loop
  structurally terminating; the derived drivers always supply enough fuel
  for it never to run out.
-/

namespace Iterators

/-- The sequence of values yielded by the Rust range `a..b` (start
inclusive, end exclusive), as in the program expression `(1..101)`. -/
def rangeList (a b : Int) : List Int :=
  (List.range (b - a).toNat).map fun n => a + (n : Int)

/-- The mapping closure `|&x| x * x` from the `map` example. -/
def square (x : Int) : Int := x * x

/-- The predicate closure `|&x| x % 2 == 0` from the `filter` example.
Rust `%` on `i32` and Lean `Int.emod` agree on whether the remainder by 2
is zero, so the evenness test is faithful. -/
def isEven (x : Int) : Bool := x % 2 == 0

/-- The combining closure `|acc, x| acc + x` used by `fold` and `reduce`. -/
def addOp (acc x : Int) : Int := acc + x

/-! ## The pull protocol of a borrowed vector iterator (`iter` / `next`) -/

/-- A borrowed vector iterator, as produced by `v1.iter()`: the borrowed
elements together with the cursor position of the next element to yield. -/
structure VecIter where
  elems : List Int
  pos : Nat
  deriving DecidableEq

/-- One call of `next()`: yield the element at the cursor and advance, or
yield nothing and stay put once the elements are spent. -/
def VecIter.next (it : VecIter) : Option Int × VecIter :=
  match it.elems.get? it.pos with
  | some x => (some x, ⟨it.elems, it.pos + 1⟩)
  | none => (none, it)

/-- The abstract states of the pull protocol: `ready i` when the element
at index `i` is the next to be produced, `exhausted` when none remain. -/
inductive ViewState where
  | ready (i : Nat)
  | exhausted
  deriving DecidableEq

/-- The abstract state a cursor is in: `ready` at its position while that
position is in bounds, `exhausted` otherwise. -/
def VecIter.state (it : VecIter) : ViewState :=
  if it.pos < it.elems.length then ViewState.ready it.pos else ViewState.exhausted

/-! ## Lazy pipelines: a source with attached `map` / `filter` stages -/

/-- A demand-driven pipeline: a source of remaining elements, optionally
wrapped by lazily attached `map` and `filter` stages.  Attaching a stage
(`Pipe.mapped f p`, `Pipe.filtered q p`) is pure data construction: no
element is touched and no stage function is invoked. -/
inductive Pipe where
  | source (xs : List Int)
  | mapped (f : Int → Int) (inner : Pipe)
  | filtered (q : Int → Bool) (inner : Pipe)

/-- Number of elements still held by the underlying source. -/
def srcLen : Pipe → Nat
  | Pipe.source xs => xs.length
  | Pipe.mapped _ i => srcLen i
  | Pipe.filtered _ i => srcLen i

/-- Number of stages wrapped around the source. -/
def pipeDepth : Pipe → Nat
  | Pipe.source _ => 0
  | Pipe.mapped _ i => pipeDepth i + 1
  | Pipe.filtered _ i => pipeDepth i + 1

/-- One pull on a pipeline, instrumented: the yielded element (if any), the
pipeline afterwards, and how many times stage functions were invoked during
this pull.  A `map` stage pulls once from its inner pipeline and applies its
function to the element obtained; a `filter` stage keeps pulling from its
inner pipeline, testing each element, until the predicate accepts one or
the inner pipeline is exhausted.  The fuel bounds the recursion; every
recursive call spends one unit, and the drivers below always supply more
fuel than a pull can consume. -/
def pnext : Nat → Pipe → Option Int × Pipe × Nat
  | _, Pipe.source [] => (none, Pipe.source [], 0)
  | _, Pipe.source (x :: r) => (some x, Pipe.source r, 0)
  | 0, p => (none, p, 0)
  | fuel + 1, Pipe.mapped f i =>
      match pnext fuel i with
      | (some x, i2, c) => (some (f x), Pipe.mapped f i2, c + 1)
      | (none, i2, c) => (none, Pipe.mapped f i2, c)
  | fuel + 1, Pipe.filtered q i =>
      match pnext fuel i with
      | (none, i2, c) => (none, Pipe.filtered q i2, c)
      | (some x, i2, c) =>
          if q x then (some x, Pipe.filtered q i2, c + 1)
          else
            match pnext fuel (Pipe.filtered q i2) with
            | (y, p2, c2) => (y, p2, c + 1 + c2)

/-- Pull at most `k` elements from a pipeline: the elements obtained in
order, the pipeline afterwards, and the total number of stage-function
invocations those pulls caused. -/
def pullN : Nat → Nat → Pipe → List Int × Pipe × Nat
  | 0, _, p => ([], p, 0)
  | k + 1, fuel, p =>
      match pnext fuel p with
      | (some x, p2, c) =>
          match pullN k fuel p2 with
          | (ys, p3, c2) => (x :: ys, p3, c + c2)
      | (none, p2, c) => ([], p2, c)

/-- Drive a pipeline to exhaustion, appending each pulled element in pull
order, and total the stage-function invocations (the engine of `collect`). -/
def pcollect : Nat → Nat → Pipe → List Int × Nat
  | 0, _, _ => ([], 0)
  | steps + 1, fuel, p =>
      match pnext fuel p with
      | (some x, p2, c) =>
          match pcollect steps fuel p2 with
          | (ys, c2) => (x :: ys, c + c2)
      | (none, _, c) => ([], c)

/-- Drive a pipeline to exhaustion threading an accumulator left-to-right
(the engine of `fold`). -/
def pfold : Nat → Nat → Int → (Int → Int → Int) → Pipe → Int
  | 0, _, acc, _, _ => acc
  | steps + 1, fuel, acc, f, p =>
      match pnext fuel p with
      | (some x, p2, _) => pfold steps fuel (f acc x) f p2
      | (none, _, _) => acc

/-- Fuel budget that a single pull on `p` can never exhaust: one unit per
stage plus one per source element that a `filter` skip loop could consume. -/
def fuelFor (p : Pipe) : Nat := pipeDepth p + srcLen p + 1

/-- Pull budget that suffices to drive `p` to exhaustion: a pipeline yields
at most one element per source element, plus a final empty pull. -/
def stepsFor (p : Pipe) : Nat := srcLen p + 1

/-- The terminal operation `collect`: the new container holding every
element the pipeline yields, in pull order. -/
def collect (p : Pipe) : List Int :=
  (pcollect (stepsFor p) (fuelFor p) p).1

/-- How many stage-function invocations driving `p` to exhaustion causes. -/
def collectCount (p : Pipe) : Nat :=
  (pcollect (stepsFor p) (fuelFor p) p).2

/-- The terminal operation `fold`: thread an accumulator seeded at `init`
through every yielded element, left-to-right. -/
def fold (init : Int) (f : Int → Int → Int) (p : Pipe) : Int :=
  pfold (stepsFor p) (fuelFor p) init f p

/-- The terminal operation `reduce`: seed the accumulator with the first
pulled element and fold the rest; yield no value when the pipeline is
empty.  Absence is an ordinary `Option.none` result, not a fault. -/
def reduceP (f : Int → Int → Int) (p : Pipe) : Option Int :=
  match pnext (fuelFor p) p with
  | (some x, p2, _) => some (pfold (stepsFor p) (fuelFor p) x f p2)
  | (none, _, _) => none

/-- Reference description of `reduce` on a plain element list: no value on
the empty list, otherwise the left fold of the tail seeded with the head. -/
def listReduce (f : Int → Int → Int) : List Int → Option Int
  | [] => none
  | x :: r => some (r.foldl f x)

/-- Reference description of one pull on a filter over a source holding
`xs`: the element delivered (if any), the source elements left over, and
the number of predicate invocations the pull makes. -/
def filterPull (q : Int → Bool) : List Int → Option Int × List Int × Nat
  | [] => (none, [], 0)
  | x :: r =>
      if q x then (some x, r, 1)
      else
        match filterPull q r with
        | (y, rest, c) => (y, rest, c + 1)

/-- The read-only borrowing view `C.iter()` of a container, as a pipeline
source; the borrow reads elements in place and never writes. -/
def borrowView (C : List Int) : Pipe := Pipe.source C

/-- Collecting through a borrowing view: the collected sequence paired with
the container as the program can still observe it afterwards.  The borrow
yields references and never writes, so the container component is the
original container. -/
def collectBorrowed (C : List Int) : List Int × List Int :=
  (collect (borrowView C), C)

/-- The mutable traversal `for num in C.iter_mut() { *num += k; }`: the
exclusive view visits each element left-to-right and the loop body
overwrites it in place with its value plus `k`.  Stateful mutation is
embedded as explicit state passing: the result is the container state when
the loop finishes. -/
def iterMutAdd (k : Int) : List Int → List Int
  | [] => []
  | x :: r => (x + k) :: iterMutAdd k r

/-! ## Pull lemmas for sources and single stages -/

theorem pnext_source_nil (fuel : Nat) :
    pnext fuel (Pipe.source []) = (none, Pipe.source [], 0) := by
  cases fuel <;> rfl

theorem pnext_source_cons (fuel : Nat) (x : Int) (r : List Int) :
    pnext fuel (Pipe.source (x :: r)) = (some x, Pipe.source r, 0) := by
  cases fuel <;> rfl

theorem pnext_mapped_source_nil (fuel : Nat) (f : Int → Int) :
    pnext (fuel + 1) (Pipe.mapped f (Pipe.source [])) =
      (none, Pipe.mapped f (Pipe.source []), 0) := by
  simp [pnext, pnext_source_nil]

theorem pnext_mapped_source_cons (fuel : Nat) (f : Int → Int) (x : Int) (r : List Int) :
    pnext (fuel + 1) (Pipe.mapped f (Pipe.source (x :: r))) =
      (some (f x), Pipe.mapped f (Pipe.source r), 1) := by
  simp [pnext, pnext_source_cons]

theorem pnext_filtered_source (q : Int → Bool) :
    ∀ (xs : List Int) (fuel : Nat), xs.length < fuel →
      pnext fuel (Pipe.filtered q (Pipe.source xs)) =
        ((filterPull q xs).1,
          Pipe.filtered q (Pipe.source (filterPull q xs).2.1),
          (filterPull q xs).2.2) := by
  intro xs
  induction xs with
  | nil =>
      intro fuel hf
      obtain ⟨g, rfl⟩ : ∃ g, fuel = g + 1 := ⟨fuel - 1, by omega⟩
      simp [pnext, pnext_source_nil, filterPull]
  | cons x r ih =>
      intro fuel hf
      obtain ⟨g, rfl⟩ : ∃ g, fuel = g + 1 := ⟨fuel - 1, by omega⟩
      by_cases hq : q x
      · simp [pnext, pnext_source_cons, filterPull, hq]
      · have hr : r.length < g := by simp at hf; omega
        have := ih g hr
        simp [pnext, pnext_source_cons, filterPull, hq, this]
        exact Nat.add_comm 1 (filterPull q r).2.2

theorem filterPull_none (q : Int → Bool) :
    ∀ (xs rest : List Int) (c : Nat), filterPull q xs = (none, rest, c) →
      xs.filter q = [] ∧ rest = [] ∧ c = xs.length := by
  intro xs
  induction xs with
  | nil =>
      intro rest c h
      simp [filterPull] at h
      simp [h.1, h.2]
  | cons x r ih =>
      intro rest c h
      by_cases hq : q x
      · simp [filterPull, hq] at h
      · rcases hrec : filterPull q r with ⟨y, rest2, c2⟩
        simp [filterPull, hq, hrec] at h
        rcases h with ⟨hy, hrest, hc⟩
        subst hy
        obtain ⟨h1, h2, h3⟩ := ih rest2 c2 hrec
        simp [List.filter_cons, hq, h1, ← hrest, h2, ← hc, h3]

theorem filterPull_some (q : Int → Bool) :
    ∀ (xs rest : List Int) (y : Int) (c : Nat), filterPull q xs = (some y, rest, c) →
      q y = true ∧ xs.filter q = y :: rest.filter q ∧
        c + rest.length = xs.length ∧ rest.length < xs.length := by
  intro xs
  induction xs with
  | nil =>
      intro rest y c h
      simp [filterPull] at h
  | cons x r ih =>
      intro rest y c h
      by_cases hq : q x
      · simp [filterPull, hq] at h
        rcases h with ⟨hy, hrest, hc⟩
        subst hy hrest hc
        simp [List.filter_cons, hq]
        omega
      · rcases hrec : filterPull q r with ⟨y2, rest2, c2⟩
        simp [filterPull, hq, hrec] at h
        rcases h with ⟨hy, hrest, hc⟩
        subst hy hrest
        obtain ⟨h1, h2, h3, h4⟩ := ih rest2 y c2 hrec
        refine ⟨h1, ?_, ?_, ?_⟩
        · simp [List.filter_cons, hq, h2]
        · simp [← hc]; omega
        · simp; omega

/-! ## Driving a pipeline to exhaustion -/

theorem pcollect_source (xs : List Int) :
    ∀ (steps fuel : Nat), xs.length < steps →
      pcollect steps fuel (Pipe.source xs) = (xs, 0) := by
  induction xs with
  | nil =>
      intro steps fuel hs
      obtain ⟨s, rfl⟩ : ∃ s, steps = s + 1 := ⟨steps - 1, by omega⟩
      simp [pcollect, pnext_source_nil]
  | cons x r ih =>
      intro steps fuel hs
      obtain ⟨s, rfl⟩ : ∃ s, steps = s + 1 := ⟨steps - 1, by omega⟩
      have hr : r.length < s := by simp at hs; omega
      simp [pcollect, pnext_source_cons, ih s fuel hr]

theorem pcollect_mapped_source (f : Int → Int) (xs : List Int) :
    ∀ (steps fuel : Nat), xs.length < steps →
      pcollect steps (fuel + 1) (Pipe.mapped f (Pipe.source xs)) =
        (xs.map f, xs.length) := by
  induction xs with
  | nil =>
      intro steps fuel hs
      obtain ⟨s, rfl⟩ : ∃ s, steps = s + 1 := ⟨steps - 1, by omega⟩
      simp [pcollect, pnext_mapped_source_nil]
  | cons x r ih =>
      intro steps fuel hs
      obtain ⟨s, rfl⟩ : ∃ s, steps = s + 1 := ⟨steps - 1, by omega⟩
      have hr : r.length < s := by simp at hs; omega
      simp [pcollect, pnext_mapped_source_cons, ih s fuel hr]
      omega

theorem pcollect_filtered_source (q : Int → Bool) :
    ∀ (n : Nat) (xs : List Int) (steps fuel : Nat),
      xs.length ≤ n → xs.length < steps → xs.length < fuel →
      pcollect steps fuel (Pipe.filtered q (Pipe.source xs)) =
        (xs.filter q, xs.length) := by
  intro n
  induction n with
  | zero =>
      intro xs steps fuel hn hs hf
      have hxs : xs = [] := List.length_eq_zero.mp (Nat.le_zero.mp hn)
      subst hxs
      obtain ⟨s, rfl⟩ : ∃ s, steps = s + 1 := ⟨steps - 1, by omega⟩
      simp [pcollect, pnext_filtered_source q [] fuel hf, filterPull]
  | succ n ih =>
      intro xs steps fuel hn hs hf
      obtain ⟨s, rfl⟩ : ∃ s, steps = s + 1 := ⟨steps - 1, by omega⟩
      have hpn := pnext_filtered_source q xs fuel hf
      rcases hfp : filterPull q xs with ⟨y, rest, c⟩
      rw [hfp] at hpn
      cases y with
      | none =>
          obtain ⟨h1, h2, h3⟩ := filterPull_none q xs rest c hfp
          simp [pcollect, hpn, h1, h3]
      | some v =>
          obtain ⟨h1, h2, h3, h4⟩ := filterPull_some q xs rest v c hfp
          have hrest : pcollect s fuel (Pipe.filtered q (Pipe.source rest)) =
              (rest.filter q, rest.length) := by
            refine ih rest s fuel (by omega) (by omega) (by omega)
          simp [pcollect, hpn, hrest, h2]
          omega

theorem pfold_source (f : Int → Int → Int) (xs : List Int) :
    ∀ (steps fuel : Nat) (acc : Int), xs.length < steps →
      pfold steps fuel acc f (Pipe.source xs) = xs.foldl f acc := by
  induction xs with
  | nil =>
      intro steps fuel acc hs
      obtain ⟨s, rfl⟩ : ∃ s, steps = s + 1 := ⟨steps - 1, by omega⟩
      simp [pfold, pnext_source_nil]
  | cons x r ih =>
      intro steps fuel acc hs
      obtain ⟨s, rfl⟩ : ∃ s, steps = s + 1 := ⟨steps - 1, by omega⟩
      have hr : r.length < s := by simp at hs; omega
      simp [pfold, pnext_source_cons, ih s fuel (f acc x) hr]

/-! ## Top-level operations -/

theorem collect_source (xs : List Int) : collect (Pipe.source xs) = xs := by
  rw [collect, pcollect_source xs (stepsFor (Pipe.source xs)) (fuelFor (Pipe.source xs))
    (by simp [stepsFor, srcLen])]

theorem collect_mapped_source (f : Int → Int) (xs : List Int) :
    pcollect (stepsFor (Pipe.mapped f (Pipe.source xs)))
        (fuelFor (Pipe.mapped f (Pipe.source xs)))
        (Pipe.mapped f (Pipe.source xs)) = (xs.map f, xs.length) := by
  have hfuel : fuelFor (Pipe.mapped f (Pipe.source xs)) = (xs.length + 1) + 1 := by
    simp [fuelFor, pipeDepth, srcLen]
    omega
  have hsteps : stepsFor (Pipe.mapped f (Pipe.source xs)) = xs.length + 1 := by
    simp [stepsFor, srcLen]
  rw [hsteps, hfuel, pcollect_mapped_source f xs (xs.length + 1) (xs.length + 1) (by omega)]

theorem collect_filtered_source (q : Int → Bool) (xs : List Int) :
    pcollect (stepsFor (Pipe.filtered q (Pipe.source xs)))
        (fuelFor (Pipe.filtered q (Pipe.source xs)))
        (Pipe.filtered q (Pipe.source xs)) = (xs.filter q, xs.length) := by
  have hfuel : fuelFor (Pipe.filtered q (Pipe.source xs)) = xs.length + 2 := by
    simp [fuelFor, pipeDepth, srcLen]
    omega
  have hsteps : stepsFor (Pipe.filtered q (Pipe.source xs)) = xs.length + 1 := by
    simp [stepsFor, srcLen]
  rw [hsteps, hfuel]
  exact pcollect_filtered_source q xs.length xs (xs.length + 1) (xs.length + 2)
    (le_refl _) (by omega) (by omega)

theorem fold_source (init : Int) (f : Int → Int → Int) (xs : List Int) :
    fold init f (Pipe.source xs) = xs.foldl f init := by
  rw [fold, pfold_source f xs (stepsFor (Pipe.source xs)) (fuelFor (Pipe.source xs)) init
    (by simp [stepsFor, srcLen])]

theorem reduce_source (f : Int → Int → Int) (xs : List Int) :
    reduceP f (Pipe.source xs) = listReduce f xs := by
  cases xs with
  | nil => simp [reduceP, pnext_source_nil, listReduce]
  | cons x r =>
      have hp := pfold_source f r (stepsFor (Pipe.source (x :: r))) (fuelFor (Pipe.source (x :: r))) x
        (by simp [stepsFor, srcLen]; omega)
      simp [reduceP, pnext_source_cons, listReduce, hp]

theorem reduce_isNone_iff_collect_isEmpty (f : Int → Int → Int) (p : Pipe) :
    (reduceP f p).isNone = (collect p).isEmpty := by
  rcases h : pnext (fuelFor p) p with ⟨y, p2, c⟩
  cases y with
  | none => simp [reduceP, collect, stepsFor, pcollect, h]
  | some v => simp [reduceP, collect, stepsFor, pcollect, h]

theorem foldl_addOp_sum : ∀ (xs : List Int) (a : Int), xs.foldl addOp a = a + xs.sum := by
  intro xs
  induction xs with
  | nil => intro a; simp
  | cons x r ih =>
      intro a
      simp [List.foldl_cons, addOp, ih, add_assoc]

theorem iterMutAdd_eq_map (k : Int) :
    ∀ xs : List Int, iterMutAdd k xs = xs.map fun x => x + k := by
  intro xs
  induction xs with
  | nil => rfl
  | cons x r ih => simp [iterMutAdd, ih]

theorem pullN_mapped_source (f : Int → Int) :
    ∀ (k : Nat) (xs : List Int) (fuel : Nat),
      pullN k (fuel + 1) (Pipe.mapped f (Pipe.source xs)) =
        ((xs.take k).map f, Pipe.mapped f (Pipe.source (xs.drop k)), min k xs.length) := by
  intro k
  induction k with
  | zero => intro xs fuel; simp [pullN]
  | succ k ih =>
      intro xs fuel
      cases xs with
      | nil => simp [pullN, pnext_mapped_source_nil]
      | cons x r =>
          simp [pullN, pnext_mapped_source_cons, ih r fuel]
          omega

/-! ## The claims -/

set_option maxRecDepth 100000 in
/-- Claim C1, counterexample: the claim reads the program's reduce as
running over the range written `1..100`.  Under the inclusive-exclusive
semantics the claim itself states, that range covers 1 through 99, and
reduce with addition over it yields 4950, not 5050. -/
theorem c1_range_written_1_100_gives_4950 :
    reduceP addOp (Pipe.source (rangeList 1 100)) = some 4950 ∧
      (4950 : Int) ≠ 5050 := by
  constructor
  · rw [reduce_source]
    decide
  · decide

set_option maxRecDepth 100000 in
/-- Claim C1, amended: applying reduce with integer addition to the range
the program actually writes, `1..101` (inclusive-exclusive, covering 1
through 100), yields 5050. -/
theorem c1_reduce_range_1_101_is_5050 :
    reduceP addOp (Pipe.source (rangeList 1 101)) = some 5050 := by
  rw [reduce_source]
  decide

/-- Claim C2: the pull protocol of a borrowed iterator.  A call of `next`
on a cursor at an in-bounds index `i` yields the element at `i` and moves
the cursor to `i + 1`, landing in state `ready (i + 1)` while `i + 1` is
in bounds and in `exhausted` once `i + 1` equals the length; out of
bounds, `next` yields nothing and leaves the cursor unchanged, so the
iterator stays `exhausted`.  The initial cursor is `ready 0` when the
container is nonempty and `exhausted` otherwise.  Concretely, on
`[10, 20, 30]` the successive calls yield `some 10`, `some 20`, `some 30`,
then `none` forever. -/
theorem c2_pull_protocol :
    (∀ (xs : List Int) (i : Nat),
        (VecIter.mk xs i).next =
          if h : i < xs.length then (some (xs.get ⟨i, h⟩), VecIter.mk xs (i + 1))
          else (none, VecIter.mk xs i)) ∧
    (∀ (xs : List Int) (i : Nat),
        ((VecIter.mk xs i).next.2).state =
          if i < xs.length then
            (if i + 1 < xs.length then ViewState.ready (i + 1) else ViewState.exhausted)
          else ViewState.exhausted) ∧
    (∀ xs : List Int,
        (VecIter.mk xs 0).state =
          if 0 < xs.length then ViewState.ready 0 else ViewState.exhausted) ∧
    ((VecIter.mk [10, 20, 30] 0).next.1 = some 10 ∧
      (VecIter.mk [10, 20, 30] 0).next.2.next.1 = some 20 ∧
      (VecIter.mk [10, 20, 30] 0).next.2.next.2.next.1 = some 30 ∧
      (VecIter.mk [10, 20, 30] 0).next.2.next.2.next.2.next.1 = none ∧
      (VecIter.mk [10, 20, 30] 0).next.2.next.2.next.2.next.2 =
        (VecIter.mk [10, 20, 30] 0).next.2.next.2.next.2) := by
  refine ⟨?_, ?_, ?_, by decide⟩
  · intro xs i
    by_cases h : i < xs.length
    · simp [VecIter.next, List.get?_eq_get h, h]
    · simp [VecIter.next, List.getElem?_eq_none (Nat.le_of_not_lt h), h]
  · intro xs i
    by_cases h : i < xs.length
    · simp [VecIter.next, List.get?_eq_get h, h, VecIter.state]
    · simp [VecIter.next, List.getElem?_eq_none (Nat.le_of_not_lt h), h, VecIter.state]
  · intro xs
    rfl

/-- Claim C3: folding the borrowing view of any container with initial
accumulator 0 and addition threads the accumulator left-to-right and
returns the sum of the container's elements; on `[1, 2, 3, 4, 5]` the
result is 15. -/
theorem c3_fold_add_is_sum :
    (∀ C : List Int, fold 0 addOp (borrowView C) = C.foldl addOp 0) ∧
    (∀ C : List Int, fold 0 addOp (borrowView C) = C.sum) ∧
    fold 0 addOp (borrowView [1, 2, 3, 4, 5]) = 15 := by
  refine ⟨?_, ?_, by decide⟩
  · intro C
    rw [borrowView, fold_source]
  · intro C
    rw [borrowView, fold_source, foldl_addOp_sum]
    simp

/-- Claim C4: collecting the map of the squaring function over the
borrowing view of any container yields the element-wise squares, in the
same order and with the same length; on `[1, 2, 3, 4, 5]` the result is
`[1, 4, 9, 16, 25]`. -/
theorem c4_collect_map_square :
    (∀ C : List Int, collect (Pipe.mapped square (borrowView C)) = C.map square) ∧
    (∀ C : List Int, (collect (Pipe.mapped square (borrowView C))).length = C.length) ∧
    collect (Pipe.mapped square (borrowView [1, 2, 3, 4, 5])) = [1, 4, 9, 16, 25] := by
  refine ⟨?_, ?_, by decide⟩
  · intro C
    simp [collect, borrowView, collect_mapped_source]
  · intro C
    simp [collect, borrowView, collect_mapped_source]

/-- Claim C5: collecting the filter of the is-even predicate over the
borrowing view of any container yields exactly the subsequence of elements
satisfying the predicate, order preserved; on `[1, 2, 3, 4, 5]` the result
is `[2, 4]`. -/
theorem c5_collect_filter_even :
    (∀ C : List Int, collect (Pipe.filtered isEven (borrowView C)) = C.filter isEven) ∧
    collect (Pipe.filtered isEven (borrowView [1, 2, 3, 4, 5])) = [2, 4] := by
  refine ⟨?_, by decide⟩
  intro C
  simp [collect, borrowView, collect_filtered_source]

/-- Claim C6: reduce returns an optional value that is absent exactly when
the view yields no elements; on a nonempty source it is present and equals
the left fold of the remaining elements seeded with the first pulled
element.  Absence is an ordinary `none` result of a total function, not a
fault. -/
theorem c6_reduce_absent_iff_empty :
    (∀ (f : Int → Int → Int) (p : Pipe), (reduceP f p).isNone = (collect p).isEmpty) ∧
    (∀ f : Int → Int → Int, reduceP f (Pipe.source []) = none) ∧
    (∀ (f : Int → Int → Int) (x : Int) (r : List Int),
        reduceP f (Pipe.source (x :: r)) = some (r.foldl f x)) := by
  refine ⟨reduce_isNone_iff_collect_isEmpty, ?_, ?_⟩
  · intro f
    rw [reduce_source]
    rfl
  · intro f x r
    rw [reduce_source]
    rfl

/-- Claim C7: driving the mutable view of any container to completion
while adding a constant `k` to each element leaves the container holding
every original element incremented by `k`, in the original order (position
by position), with the length unchanged; in the program, `[1, 2, 3]` with
`k = 1` becomes `[2, 3, 4]`. -/
theorem c7_iter_mut_add_constant :
    (∀ (C : List Int) (k : Int), (iterMutAdd k C).length = C.length) ∧
    (∀ (C : List Int) (k : Int) (i : Nat),
        (iterMutAdd k C).get? i = (C.get? i).map fun x => x + k) ∧
    iterMutAdd 1 [1, 2, 3] = [2, 3, 4] := by
  refine ⟨?_, ?_, by decide⟩
  · intro C k
    rw [iterMutAdd_eq_map]
    simp
  · intro C k i
    rw [iterMutAdd_eq_map]
    simp

/-- Claim C8: collecting the borrowing view of any container yields a
sequence equal in order and value to the container's original contents,
and the container itself is unchanged and still accessible after the
traversal. -/
theorem c8_collect_borrow_preserves :
    (∀ C : List Int, (collectBorrowed C).1 = C) ∧
    (∀ C : List Int, (collectBorrowed C).2 = C) ∧
    collectBorrowed [1, 2, 3] = ([1, 2, 3], [1, 2, 3]) := by
  refine ⟨?_, fun C => rfl, by decide⟩
  intro C
  simp [collectBorrowed, borrowView, collect_source]

set_option maxRecDepth 100000 in
/-- Claim C9: the program's final forced unwrap never hits the no-value
branch: the reduce runs over the range written `1..101`, a nonempty
compile-time literal, so its result is present (and equals 5050). -/
theorem c9_final_unwrap_never_absent :
    rangeList 1 101 ≠ [] ∧
      (reduceP addOp (Pipe.source (rangeList 1 101))).isSome = true := by
  constructor
  · decide
  · rw [reduce_source]
    decide

/-- Claim C10: laziness of the pipeline stages.  Attaching a map or filter
stage and performing no pull invokes the supplied function zero times, for
any upstream pipeline; and pulling `k` elements from a map over a source
of `n` elements invokes the mapping function exactly `min k n` times, so
work happens only for elements the consumer actually pulls, while driving
the map to exhaustion with `collect` invokes it exactly once per element. -/
theorem c10_stages_are_lazy :
    (∀ (f : Int → Int) (q : Int → Bool) (p : Pipe) (fuel : Nat),
        pullN 0 fuel (Pipe.mapped f p) = ([], Pipe.mapped f p, 0) ∧
        pullN 0 fuel (Pipe.filtered q p) = ([], Pipe.filtered q p, 0)) ∧
    (∀ (f : Int → Int) (xs : List Int) (k : Nat),
        (pullN k (fuelFor (Pipe.mapped f (Pipe.source xs)))
            (Pipe.mapped f (Pipe.source xs))).2.2 = min k xs.length) ∧
    (∀ (f : Int → Int) (xs : List Int),
        collectCount (Pipe.mapped f (Pipe.source xs)) = xs.length) := by
  refine ⟨fun f q p fuel => ⟨rfl, rfl⟩, ?_, ?_⟩
  · intro f xs k
    have hfuel : fuelFor (Pipe.mapped f (Pipe.source xs)) = (xs.length + 1) + 1 := by
      simp [fuelFor, pipeDepth, srcLen]
      omega
    rw [hfuel, pullN_mapped_source]
  · intro f xs
    simp [collectCount, collect_mapped_source]

end Iterators
